import Mathlib

/-!
# Verification of the gifdec GIF decoder (`src/gifdec.c`)

A shallow embedding of the decoder pipeline of `gifdec.c` into Lean 4,
together with theorems settling the specification claims about it.

Conventions of the embedding:

* Bytes are `Nat`s; concrete inputs use values `< 256`.  `uint8_t`
  arithmetic that can wrap (the `(*sub_len)--` decrement in `get_key`)
  is modelled with an explicit `% 256`.
* The byte source (`read`/`lseek` on a file descriptor) is modelled as a
  `List Nat` that is consumed from the front; a read past the end of the
  input yields `none` (the C code would leave the destination buffer
  unchanged there).
* The LZW code table is a structure with an entry count and a total
  function `Nat → Entry`.  `malloc`/`realloc` bookkeeping (`bulk`, the
  out-of-memory return `-1`) is not modelled: allocation always
  succeeds.  Slots the C code never initialises (the CLEAR/STOP slots
  and everything past the last added entry) are mapped to the junk
  entry `⟨0, 0, 0⟩`.
* Loops are modelled by structural recursion where a measure is
  evident, and by an explicit fuel parameter otherwise (`none` on fuel
  exhaustion).  The pixel-emission `while` loop of `read_image_data`
  is run with fuel `0x1001`, enough for every well-formed chain.
* Pixel stores `gif->frame[o] = v` are logged as pairs `(o, v)` in the
  order the C code performs them; this keeps out-of-bounds stores
  (which the C code can perform) observable.
-/

/-- One LZW code-table entry: `Entry {uint16_t length; uint16_t prefix; uint8_t suffix}`.
The prefix field is called `pfx` here. `pfx = 0xFFF` is the "no prefix" sentinel. -/
structure Entry where
  length : Nat
  pfx : Nat
  suffix : Nat
deriving DecidableEq, Repr

/-- The LZW code table (`Table`), with the entry array as a total function.
`bulk`/realloc bookkeeping is not modelled. -/
structure Table where
  nentries : Nat
  entries : Nat → Entry

/-- `new_table(key_size)`: `nentries = (1 << key_size) + 2`; entries
`0 .. (1<<key_size)-1` are the literals `{1, 0xFFF, key}`.  The C code leaves
the remaining allocated slots uninitialised; they are mapped to `⟨0,0,0⟩`. -/
def new_table (key_size : Nat) : Table :=
  { nentries := 2 ^ key_size + 2,
    entries := fun key => if key < 2 ^ key_size then ⟨1, 0xFFF, key⟩ else ⟨0, 0, 0⟩ }

/-- `add_entry(table, length, prefix, suffix)`: store the entry at index
`nentries`, increment `nentries`, and return `1` iff the new `nentries` is a
power of two (the C test `(nentries & (nentries - 1)) == 0`), else `0`.
The C out-of-memory path (return `-1`) is not modelled. -/
def add_entry (t : Table) (length pfx suffix : Nat) : Nat × Table :=
  let t' : Table :=
    { nentries := t.nentries + 1,
      entries := fun i => if i = t.nentries then ⟨length, pfx, suffix⟩ else t.entries i }
  (if t'.nentries &&& (t'.nentries - 1) = 0 then 1 else 0, t')

/-- Inner loop of `get_key`: accumulate `ks` bits LSB-first, pulling a fresh
source byte whenever `(shift0 + bits_read) % 8 == 0`, and, when the current
sub-block is exhausted (`sub_len == 0`), first pulling the next sub-block's
length byte.  The C code does NOT check that length byte for zero (its comment
says "Must be nonzero!"); the `uint8_t` decrement `(*sub_len)--` wraps, which
is modelled by `(· + 255) % 256`.  State: bits_read, accumulator, sub_len,
current byte, remaining input.  The fuel is `ks + 1`, which always suffices
because every pass reads at least one bit. -/
def getKeyAux (ks shift0 : Nat) :
    Nat → Nat → Nat → Nat → Nat → List Nat → Option (Nat × Nat × Nat × List Nat)
  | 0, _, _, _, _, _ => none
  | fuel + 1, br, acc, sl, b, inp =>
    if br < ks then
      let rpad := (shift0 + br) % 8
      let pulled : Option (Nat × Nat × List Nat) :=
        if rpad = 0 then
          match inp with
          | [] => none
          | a :: inp' =>
            if sl = 0 then
              match inp' with
              | [] => none
              | d :: inp'' => some ((a + 255) % 256, d, inp'')
            else some ((sl + 255) % 256, a, inp')
        else some (sl, b, inp)
      match pulled with
      | none => none
      | some (sl', b', inp2) =>
        let frag := min (ks - br) (8 - rpad)
        getKeyAux ks shift0 fuel (br + frag) (acc ||| (b' >>> rpad) <<< br) sl' b' inp2
    else some (acc, sl, b, inp)

/-- `get_key(gif, key_size, &sub_len, &shift, &byte)`: extract the next
`key_size`-bit LZW code.  Returns `(key, sub_len', shift', byte', rest)`. -/
def get_key (ks sub_len shift b : Nat) (inp : List Nat) :
    Option (Nat × Nat × Nat × Nat × List Nat) :=
  match getKeyAux ks shift (ks + 1) 0 0 sub_len b inp with
  | none => none
  | some (acc, sl', b', inp') =>
    some (acc &&& (2 ^ ks - 1), sl', (shift + ks) % 8, b', inp')

/-- Does flat raster offset `off` lie inside the frame rect `(x,y,w,h)` of a
logical screen of width `width`?  (Decidable helper used to state the bounds
claims; the C code computes offsets `(y + p/w)*width + (x + p%w)`.) -/
def inRect (x y w h width off : Nat) : Bool :=
  (List.range h).any fun r => (List.range w).any fun c => off = (y + r) * width + (x + c)

/-- The string denoted by a table entry, read left-to-right: walk the `pfx`
chain to the literal and collect the suffixes.  Fuel-based; `none` when the
chain does not reach a literal within `fuel` steps. -/
def entryStr (ents : Nat → Entry) : Entry → Nat → Option (List Nat)
  | _, 0 => none
  | e, fuel + 1 =>
    if e.pfx = 0xFFF then some [e.suffix]
    else
      match entryStr ents (ents e.pfx) fuel with
      | none => none
      | some s => some (s ++ [e.suffix])

/-- The inner `while (1)` emission loop of `read_image_data` (lines 308-315):
starting from entry `e`, repeatedly store `entry.suffix` at the raster offset
`place (frm_off + entry.length - 1)` and follow `entry.prefix` until the
sentinel.  Returns the stores in the order the C code performs them
(right-to-left) and the final value of the loop variable `entry` (the literal
reached).  Fuel-based; the C loop would run forever on a cyclic chain. -/
def emitLoop (ents : Nat → Entry) (base : Nat) (place : Nat → Nat) :
    Entry → Nat → Option (List (Nat × Nat) × Entry)
  | _, 0 => none
  | e, fuel + 1 =>
    let wr := (place (base + e.length - 1), e.suffix)
    if e.pfx = 0xFFF then some ([wr], e)
    else
      match emitLoop ents base place (ents e.pfx) fuel with
      | none => none
      | some (ws, leaf) => some (wr :: ws, leaf)

/-- `table->entries[table->nentries - 1].suffix = s` (the KwKwK fix-up store
at line 318). -/
def patchSuffix (t : Table) (j s : Nat) : Table :=
  { t with entries := fun i => if i = j then { t.entries j with suffix := s } else t.entries i }

/-- The local state of one `read_image_data` call, at the head of its
`while (1)` loop.  `key` holds the result of the last `get_key` (initially the
code read at line 283), `entry`/`str_len` the emission leftovers, `ret` the
retained `add_entry` result.  The C code leaves `table_is_full`, `str_len` and
`entry` uninitialised until the first CLEAR code; the embedding starts them at
`false`/`0`/`⟨0, 0xFFF, 0⟩` (a stream whose first code is CLEAR, as the format
requires, never reads them before they are assigned).  `writes` logs the pixel
stores and `keyTrace` the value of `key_size` at each `get_key` call. -/
structure LzwState where
  width : Nat
  x : Nat
  y : Nat
  w : Nat
  clear : Nat
  key_size : Nat
  init_key_size : Nat
  sub_len : Nat
  shift : Nat
  b : Nat
  input : List Nat
  table : Table
  table_is_full : Bool
  str_len : Nat
  entry : Entry
  frm_off : Nat
  ret : Nat
  key : Nat
  writes : List (Nat × Nat)
  keyTrace : List Nat

/-- The observable outcome of `read_image_data`: the pixel stores, the
`key_size` used at each `get_key` call, the final entry count of the table,
the byte read after STOP (the C comment says "Must be zero!", unchecked), and
the unconsumed input. -/
structure LzwResult where
  writes : List (Nat × Nat)
  keyTrace : List Nat
  finalNentries : Nat
  term : Option Nat
  remaining : List Nat
deriving DecidableEq, Repr

/-- Result of one iteration of the `while (1)` loop of `read_image_data`. -/
inductive StepRes where
  | cont (s : LzwState)
  | done (r : LzwResult)
  | fail

/-- One iteration of the `while (1)` loop of `read_image_data` (lines
286-319), exactly in the C order: CLEAR handling or speculative `add_entry`;
`get_key`; `continue` on CLEAR / `break` on STOP; `if (ret == 1) key_size++`
(note: `ret` is NOT reset, and there is no `key_size < 12` guard); table
lookup; right-to-left emission; `frm_off += str_len`; conditional suffix
patch.  `.fail` models a read past the end of the input or a non-terminating
emission chain. -/
def lzwStep (s : LzwState) : StepRes :=
  let s1 :=
    if s.key = s.clear then
      { s with key_size := s.init_key_size,
               table := { s.table with nentries := 2 ^ (s.init_key_size - 1) + 2 },
               table_is_full := false }
    else if s.table_is_full = false then
      let r := add_entry s.table (s.str_len + 1) s.key s.entry.suffix
      let s' := { s with ret := r.1, table := r.2 }
      if r.2.nentries = 0x1000 then { s' with ret := 0, table_is_full := true } else s'
    else s
  match get_key s1.key_size s1.sub_len s1.shift s1.b s1.input with
  | none => .fail
  | some (k, sl, sh, b2, inp) =>
    let s2 := { s1 with sub_len := sl, shift := sh, b := b2, input := inp,
                        keyTrace := s1.keyTrace ++ [s1.key_size] }
    if k = s2.clear then .cont { s2 with key := k }
    else if k = s2.clear + 1 then
      .done { writes := s2.writes, keyTrace := s2.keyTrace,
              finalNentries := s2.table.nentries,
              term := s2.input.head?, remaining := s2.input.drop 1 }
    else
      let s3 := if s2.ret = 1 then { s2 with key_size := s2.key_size + 1 } else s2
      let e := s3.table.entries k
      match emitLoop s3.table.entries s3.frm_off
          (fun p => (s3.y + p / s3.w) * s3.width + (s3.x + p % s3.w)) e 0x1001 with
      | none => .fail
      | some (ws, leaf) =>
        let s4 := { s3 with str_len := e.length, frm_off := s3.frm_off + e.length,
                            writes := s3.writes ++ ws, entry := leaf, key := k }
        if k < s4.table.nentries - 1 ∧ s4.table_is_full = false then
          .cont { s4 with table := patchSuffix s4.table (s4.table.nentries - 1) leaf.suffix }
        else .cont s4

/-- The `while (1)` loop of `read_image_data`, iterated with fuel. -/
def lzwLoop : Nat → LzwState → Option LzwResult
  | 0, _ => none
  | fuel + 1, s =>
    match lzwStep s with
    | .fail => none
    | .done r => some r
    | .cont s' => lzwLoop fuel s'

/-- `read_image_data(gif, x, y, w)` (lines 264-323): read the minimum code
size byte, build the initial table, read the first code (the CLEAR code), and
run the decode loop.  `width` is `gif->width`; the frame-rect height is not
used by the C code. -/
def read_image_data (width x y w : Nat) (input : List Nat) (fuel : Nat) :
    Option LzwResult :=
  match input with
  | [] => none
  | b0 :: rest =>
    let t := new_table b0
    let ks := b0 + 1
    match get_key ks 0 0 0 rest with
    | none => none
    | some (k, sl, sh, b2, inp) =>
      lzwLoop fuel
        { width := width, x := x, y := y, w := w, clear := 2 ^ b0,
          key_size := ks, init_key_size := ks,
          sub_len := sl, shift := sh, b := b2, input := inp,
          table := t, table_is_full := false, str_len := 0,
          entry := ⟨0, 0xFFF, 0⟩, frm_off := 0, ret := 0, key := k,
          writes := [], keyTrace := [ks] }

/-- A color table: `gd_Palette {int size; uint8_t colors[0x100 * 3]}`, with
only the `3 * size` bytes actually read kept. -/
structure Palette where
  size : Nat
  colors : List Nat
deriving DecidableEq, Repr

/-- The graphic-control-extension fields of `gd_GCE`, exactly as the C code
stores them (`input` keeps the masked value `rdit & 2`, not a shifted bit). -/
structure GCE where
  delay : Nat
  tindex : Nat
  disposal : Nat
  input : Nat
  transparency : Nat
deriving DecidableEq, Repr

/-- The mutable part of `gd_GIF` that `gd_get_frame` and the extension
handlers touch: the graphic-control metadata, the Netscape loop count, the
global/local palettes, which palette is active (`gif->palette` points to
`&gif->lct` iff `activeLocal`), the pixel-store log for the frame raster, and
the remaining input.  `width` is the logical-screen width used for pixel
placement. -/
structure GifState where
  width : Nat
  gct : Palette
  lct : Palette
  activeLocal : Bool
  gce : GCE
  loop_count : Nat
  writes : List (Nat × Nat)
  input : List Nat
deriving DecidableEq, Repr

/-- `discard_sub_blocks(gif)`: repeatedly read a length byte and skip that
many bytes, until a zero length byte. -/
def discard_sub_blocks : List Nat → Option (List Nat)
  | [] => none
  | sz :: rest => if sz = 0 then some rest else discard_sub_blocks (rest.drop sz)
termination_by inp => inp.length
decreasing_by simp [List.length_drop]; omega

/-- `read_plain_text_ext(gif)`: skip 13 metadata bytes, then the sub-block
chain. -/
def read_plain_text_ext (s : GifState) : Option GifState :=
  match discard_sub_blocks (s.input.drop 13) with
  | none => none
  | some r => some { s with input := r }

/-- `read_graphic_control_ext(gif)` (lines 122-137): skip the size byte, read
the packed byte `rdit` and set `disposal = (rdit >> 2) & 3`,
`input = rdit & 2`, `transparency = rdit & 1`; read the little-endian delay
and the transparent index; skip the terminator. -/
def read_graphic_control_ext (s : GifState) : Option GifState :=
  match s.input with
  | _sz :: rdit :: d0 :: d1 :: ti :: _term :: rest =>
    some { s with
           gce := { disposal := (rdit >>> 2) &&& 3, input := rdit &&& 2,
                    transparency := rdit &&& 1, delay := d0 + 256 * d1,
                    tindex := ti },
           input := rest }
  | _ => none

/-- `read_comment_ext(gif)`: skip the sub-block chain. -/
def read_comment_ext (s : GifState) : Option GifState :=
  match discard_sub_blocks s.input with
  | none => none
  | some r => some { s with input := r }

/-- `read_application_ext(gif)` (lines 148-171): skip the size byte, read the
8-byte identifier and 3-byte auth code; for `"NETSCAPE"` skip 2 bytes, read
the 16-bit loop count and skip the terminator; otherwise skip the sub-block
chain. -/
def read_application_ext (s : GifState) : Option GifState :=
  match s.input with
  | _bs :: rest =>
    if rest.length < 11 then none
    else if rest.take 8 = [78, 69, 84, 83, 67, 65, 80, 69] then
      match rest.drop 11 with
      | _b3 :: _b1 :: l0 :: l1 :: _term :: rest2 =>
        some { s with loop_count := l0 + 256 * l1, input := rest2 }
      | _ => none
    else
      match discard_sub_blocks (rest.drop 11) with
      | none => none
      | some r => some { s with input := r }
  | [] => none

/-- `read_ext(gif)` (lines 173-195): read the label byte and dispatch.  An
unknown label consumes nothing further (the C code only warns). -/
def read_ext (s : GifState) : Option GifState :=
  match s.input with
  | [] => none
  | label :: rest =>
    if label = 0x01 then read_plain_text_ext { s with input := rest }
    else if label = 0xF9 then read_graphic_control_ext { s with input := rest }
    else if label = 0xFE then read_comment_ext { s with input := rest }
    else if label = 0xFF then read_application_ext { s with input := rest }
    else some { s with input := rest }

/-- `read_image(gif)` (lines 327-352): read the image descriptor
`x, y, w, h, fisrz`; read a local color table if bit 7 of `fisrz` is set and
point the active palette at it, else at the global table; then decompress the
image data.  The interlace flag (bit 6) and `h` are read but unused. -/
def read_image (s : GifState) (fuel : Nat) : Option GifState :=
  match s.input with
  | x0 :: x1 :: y0 :: y1 :: w0 :: w1 :: _h0 :: _h1 :: fisrz :: rest =>
    let x := x0 + 256 * x1
    let y := y0 + 256 * y1
    let w := w0 + 256 * w1
    let s1 :=
      if fisrz &&& 0x80 ≠ 0 then
        let sz := 2 ^ ((fisrz &&& 7) + 1)
        { s with lct := { size := sz, colors := rest.take (3 * sz) },
                 activeLocal := true, input := rest.drop (3 * sz) }
      else { s with activeLocal := false, input := rest }
    match read_image_data s1.width x y w s1.input fuel with
    | none => none
    | some r => some { s1 with writes := s1.writes ++ r.writes, input := r.remaining }
  | _ => none

/-- `gd_get_frame(gif)` (lines 355-372): read separator bytes; `','` starts an
image (result 1), `';'` is the trailer (result 0), `'!'` dispatches an
extension and loops, anything else is an error (result -1). -/
def gd_get_frame : Nat → GifState → Option (Int × GifState)
  | 0, _ => none
  | fuel + 1, s =>
    match s.input with
    | [] => none
    | sep :: rest =>
      if sep = 44 then
        match read_image { s with input := rest } (fuel + 1) with
        | none => none
        | some s2 => some (1, s2)
      else if sep = 59 then some (0, { s with input := rest })
      else if sep = 33 then
        match read_ext { s with input := rest } with
        | none => none
        | some s2 => gd_get_frame fuel s2
      else some (-1, { s with input := rest })

/-- Decoder-open errors.  The C `gd_open_gif` returns `NULL` in every failure
case; the distinct diagnostics of lines 50-74 are modelled as distinct error
values, named after the specification's taxonomy. -/
inductive GifError where
  | invalidMagic
  | unsupportedFormat
  | io
deriving DecidableEq, Repr

/-- The data `gd_open_gif` establishes on success: dimensions, background
index, aspect byte, global color table, the zero-initialised (`calloc`)
`width*height` frame raster, and the unconsumed input. -/
structure OpenedGif where
  width : Nat
  height : Nat
  bgindex : Nat
  aspect : Nat
  gct : Palette
  frame : List Nat
  rest : List Nat
deriving DecidableEq, Repr

/-- `gd_open_gif(fname)` (lines 36-98): check the `"GIF"` signature and
`"89a"` version; read width, height and the packed byte `fdsz`; require the
global-color-table bit (0x80) and color depth bits `(fdsz >> 4) & 7 == 7`;
read the background index and aspect byte; then read the
`3 * (1 << ((fdsz & 7) + 1))`-byte global palette and allocate the
zero-initialised `width*height` frame raster. -/
def gd_open_gif (input : List Nat) : Except GifError OpenedGif :=
  match input with
  | g0 :: g1 :: g2 :: v0 :: v1 :: v2 :: w0 :: w1 :: h0 :: h1 :: fdsz :: bg :: asp :: rest =>
    if g0 = 71 ∧ g1 = 73 ∧ g2 = 70 then
      if v0 = 56 ∧ v1 = 57 ∧ v2 = 97 then
        if fdsz &&& 0x80 = 0 then .error .unsupportedFormat
        else if (fdsz >>> 4) &&& 7 ≠ 7 then .error .unsupportedFormat
        else
          let width := w0 + 256 * w1
          let height := h0 + 256 * h1
          let sz := 2 ^ ((fdsz &&& 7) + 1)
          .ok { width := width, height := height, bgindex := bg, aspect := asp,
                gct := { size := sz, colors := rest.take (3 * sz) },
                frame := List.replicate (width * height) 0,
                rest := rest.drop (3 * sz) }
      else .error .invalidMagic
    else .error .invalidMagic
  | _ => .error .io

/-- Well-formedness of one prefix chain: walking `pfx` from `e` stays below
`bound`, decreases `length` by exactly one per hop, and reaches a literal
(`pfx = 0xFFF`, `length = 1`) within `fuel` steps.  This is the shape every
chain reachable by the decoder has. -/
def goodChain (ents : Nat → Entry) (bound : Nat) : Entry → Nat → Bool
  | _, 0 => false
  | e, fuel + 1 =>
    if e.pfx = 0xFFF then e.length == 1
    else decide (e.pfx < bound) && (e.length == (ents e.pfx).length + 1) &&
         goodChain ents bound (ents e.pfx) fuel

/-- The code-table invariant of the specification: every decodable entry's
prefix walk reaches a literal within `length` steps (`goodChain` with fuel
`length`).  The CLEAR and STOP slots (`clear`, `clear + 1`) are exempt: the
C code never initialises or dereferences them. -/
@[reducible]
def wfTable (t : Table) (clear : Nat) : Prop :=
  ∀ i, i < t.nentries → i ≠ clear → i ≠ clear + 1 →
    goodChain t.entries t.nentries (t.entries i) ((t.entries i).length) = true

/-- **C1** (code_bug evidence).  The LZW emission loop of `read_image_data`
performs pixel stores outside the frame rect and returns success, with no
`MalformedStream` error.  For a logical screen of width 2, frame rect
`(x,y,w,h) = (0,0,1,1)` and LZW payload `[2, 2, 0x04, 0x0A, 0x00]` (codes
CLEAR, 0, 0, STOP at 3 bits), the decoder performs two pixel stores — the
claim demands exactly `w*h = 1` — and the second store at flat offset 2 lies
outside the rect. -/
theorem c1_oob_write_not_rejected :
    read_image_data 2 0 0 1 [2, 2, 4, 10, 0] 10 =
      some { writes := [(0, 0), (2, 0)], keyTrace := [3, 3, 3, 3],
             finalNentries := 8, term := some 0, remaining := [] } ∧
    inRect 0 0 1 1 2 2 = false ∧
    ¬ ([((0 : Nat), (0 : Nat)), (2, 0)].length = 1 * 1) := by
  refine ⟨by decide, by decide, by decide⟩

/-- **C2** (code_bug evidence).  `read_image_data` never validates the
minimum-code-size byte, so `key_size` is not confined to `[init_key_size, 12]`:
with minimum code size 12 the decoder calls `get_key` with `key_size = 13`
(the `keyTrace` below), exceeding the 12-bit ceiling the claim states. -/
theorem c2_key_size_exceeds_12 :
    read_image_data 1 0 0 1 [12, 4, 0, 48, 0, 2, 0] 10 =
      some { writes := [], keyTrace := [13, 13], finalNentries := 4098,
             term := some 0, remaining := [] } ∧
    ¬ ((13 : Nat) ≤ 12) := by
  refine ⟨by decide, by decide⟩

/-- **C4** (code_bug evidence).  When `get_key` needs a fresh sub-block length
byte (`sub_len == 0`) and that byte is zero, the C code does not fail: it
reads a data byte anyway and the `uint8_t` decrement wraps `sub_len` to 255.
Here a zero length byte is followed by data byte `0xAB = 171`; `get_key`
succeeds with key `0xAB` and `sub_len = 255` instead of signalling
`MalformedStream`. -/
theorem c4_zero_sub_block_not_rejected :
    get_key 8 0 0 0 (0 :: [171, 99]) = some (171, 255, 0, 171, [99]) := by
  decide

/-- **C6** (code_bug evidence).  `nentries` can exceed `0x1000` in a reachable
decoder state: with minimum code size 13 the table is created with
`2^13 + 2 = 8194` entries, the CLEAR reset restores `8194`, and the decoder
finishes with `nentries = 8194 > 0x1000`; the `nentries == 0x1000` full-table
check can never fire. -/
theorem c6_nentries_exceeds_cap :
    (new_table 13).nentries = 8194 ∧
    read_image_data 1 0 0 1 [13, 4, 0, 96, 0, 8, 0] 10 =
      some { writes := [], keyTrace := [14, 14], finalNentries := 8194,
             term := some 0, remaining := [] } ∧
    0x1000 < 8194 := by
  refine ⟨by decide, by decide, by decide⟩

/-- `n &&& 2 ≠ 0` says exactly that bit 1 of `n` is set. -/
theorem and_two_ne_zero_iff (n : Nat) : n &&& 2 ≠ 0 ↔ n / 2 % 2 = 1 := by
  have h2 : (2 : Nat) = 2 ^ 1 := by norm_num
  rw [h2, Nat.and_two_pow, Nat.testBit_to_div_mod]
  rcases Nat.mod_two_eq_zero_or_one (n / 2 ^ 1) with h | h <;> simp [h]

/-- `n >>> 2 &&& 3` is the two-bit field `n / 4 % 4`. -/
theorem shr2_and_3_eq (n : Nat) : (n >>> 2) &&& 3 = n / 4 % 4 := by
  have h3 : (3 : Nat) = 2 ^ 2 - 1 := by norm_num
  rw [Nat.shiftRight_eq_div_pow, h3, Nat.and_pow_two_sub_one_eq_mod]

/-- **C3** (counterexample to the claim as stated).  For packed byte
`rdit = 0x10`, bits 4..2 are `(rdit >> 2) & 7 = 4`, but
`read_graphic_control_ext` stores disposal `(rdit >> 2) & 3 = 0`: the C code
masks the disposal field to two bits, dropping bit 4. -/
theorem c3_disposal_bits_counterexample :
    (read_graphic_control_ext
        { width := 0, gct := ⟨0, []⟩, lct := ⟨0, []⟩, activeLocal := false,
          gce := ⟨0, 0, 0, 0, 0⟩, loop_count := 0, writes := [],
          input := [4, 16, 0, 0, 0, 0] }).map (fun s => s.gce.disposal) = some 0 ∧
    (16 >>> 2) &&& 7 = 4 ∧ ¬ ((0 : Nat) = 4) := by
  refine ⟨by decide, by decide, by decide⟩

/-- **C3** (amended).  Parsing a graphic-control extension sets the
`FrameMeta` fields from the packed byte as: disposal = bits 3..2 (the field is
masked to two bits), user-input flag = bit 1, transparency flag = bit 0; then
the 16-bit little-endian delay and the transparent-color index are read, and
the block terminator is skipped. -/
theorem c3_graphic_control_ext_fields (s : GifState)
    (sz rdit d0 d1 ti tb : Nat) (rest : List Nat)
    (h : s.input = sz :: rdit :: d0 :: d1 :: ti :: tb :: rest) :
    ∃ s', read_graphic_control_ext s = some s' ∧
      s'.gce.disposal = rdit / 4 % 4 ∧
      (s'.gce.input ≠ 0 ↔ rdit / 2 % 2 = 1) ∧
      s'.gce.transparency = rdit % 2 ∧
      s'.gce.delay = d0 + 256 * d1 ∧
      s'.gce.tindex = ti ∧
      s'.input = rest := by
  refine ⟨_, by rw [read_graphic_control_ext, h], ?_, ?_, ?_, rfl, rfl, rfl⟩
  · exact shr2_and_3_eq rdit
  · exact and_two_ne_zero_iff rdit
  · exact Nat.and_one_is_mod rdit

/-- Witness for `c3_graphic_control_ext_fields` at a concrete extension body. -/
theorem c3_graphic_control_ext_fields_witness :
    ∃ s', read_graphic_control_ext
        { width := 0, gct := ⟨0, []⟩, lct := ⟨0, []⟩, activeLocal := false,
          gce := ⟨0, 0, 0, 0, 0⟩, loop_count := 0, writes := [],
          input := [4, 7, 10, 1, 3, 0] } = some s' ∧
      s'.gce.disposal = 7 / 4 % 4 ∧
      (s'.gce.input ≠ 0 ↔ 7 / 2 % 2 = 1) ∧
      s'.gce.transparency = 7 % 2 ∧
      s'.gce.delay = 10 + 256 * 1 ∧
      s'.gce.tindex = 3 ∧
      s'.input = [] :=
  c3_graphic_control_ext_fields _ 4 7 10 1 3 0 [] rfl

/-- **C9**.  `gd_open_gif` fails with `InvalidMagic` whenever the first three
bytes are not `"GIF"` or the next three are not `"89a"`; it fails with
`UnsupportedFormat` whenever the packed byte `fdsz` lacks the top bit or its
bits 6..4 differ from `0b111`; and on success it has read a global palette of
`1 << ((fdsz & 7) + 1)` RGB entries and allocated a zero-initialised
`width*height` frame raster. -/
theorem c9_open_header_checks
    (g0 g1 g2 v0 v1 v2 w0 w1 h0 h1 fdsz bg asp : Nat) (rest : List Nat) :
    (¬ ((g0 = 71 ∧ g1 = 73 ∧ g2 = 70) ∧ (v0 = 56 ∧ v1 = 57 ∧ v2 = 97)) →
      gd_open_gif (g0 :: g1 :: g2 :: v0 :: v1 :: v2 :: w0 :: w1 :: h0 :: h1 ::
          fdsz :: bg :: asp :: rest) = .error .invalidMagic) ∧
    ((g0 = 71 ∧ g1 = 73 ∧ g2 = 70) → (v0 = 56 ∧ v1 = 57 ∧ v2 = 97) →
      (fdsz &&& 0x80 = 0 ∨ (fdsz >>> 4) &&& 7 ≠ 7) →
      gd_open_gif (g0 :: g1 :: g2 :: v0 :: v1 :: v2 :: w0 :: w1 :: h0 :: h1 ::
          fdsz :: bg :: asp :: rest) = .error .unsupportedFormat) ∧
    ((g0 = 71 ∧ g1 = 73 ∧ g2 = 70) → (v0 = 56 ∧ v1 = 57 ∧ v2 = 97) →
      fdsz &&& 0x80 ≠ 0 → (fdsz >>> 4) &&& 7 = 7 →
      3 * 2 ^ ((fdsz &&& 7) + 1) ≤ rest.length →
      gd_open_gif (g0 :: g1 :: g2 :: v0 :: v1 :: v2 :: w0 :: w1 :: h0 :: h1 ::
          fdsz :: bg :: asp :: rest) =
        .ok { width := w0 + 256 * w1, height := h0 + 256 * h1,
              bgindex := bg, aspect := asp,
              gct := { size := 2 ^ ((fdsz &&& 7) + 1),
                       colors := rest.take (3 * 2 ^ ((fdsz &&& 7) + 1)) },
              frame := List.replicate ((w0 + 256 * w1) * (h0 + 256 * h1)) 0,
              rest := rest.drop (3 * 2 ^ ((fdsz &&& 7) + 1)) } ∧
      (rest.take (3 * 2 ^ ((fdsz &&& 7) + 1))).length = 3 * 2 ^ ((fdsz &&& 7) + 1)) := by
  refine ⟨?_, ?_, ?_⟩
  · intro hbad
    rw [gd_open_gif]
    split_ifs with h1 h2 h3 h4 <;> first | rfl | exact absurd ⟨h1, h2⟩ hbad
  · intro hg hv h
    rw [gd_open_gif, if_pos hg, if_pos hv]
    split_ifs with h3 h4 <;> first | rfl | tauto
  · intro hg hv hbit hdepth hlen
    rw [gd_open_gif, if_pos hg, if_pos hv, if_neg hbit,
      if_neg (not_ne_iff.mpr hdepth)]
    exact ⟨rfl, List.length_take_of_le hlen⟩

/-- Witness for `c9_open_header_checks`: a bad-signature header, a header
with `fdsz = 0` (no global palette), and a valid header with `fdsz = 0xF0`. -/
theorem c9_open_header_checks_witness :
    gd_open_gif (0 :: 0 :: 0 :: 0 :: 0 :: 0 :: 1 :: 0 :: 1 :: 0 :: 0 :: 0 :: 0 :: []) =
      .error .invalidMagic ∧
    gd_open_gif (71 :: 73 :: 70 :: 56 :: 57 :: 97 :: 1 :: 0 :: 1 :: 0 :: 0 :: 0 :: 0 :: []) =
      .error .unsupportedFormat ∧
    (gd_open_gif (71 :: 73 :: 70 :: 56 :: 57 :: 97 :: 1 :: 0 :: 1 :: 0 :: 240 :: 0 :: 0 ::
        [10, 20, 30, 40, 50, 60]) =
      .ok { width := 1 + 256 * 0, height := 1 + 256 * 0, bgindex := 0, aspect := 0,
            gct := { size := 2 ^ ((240 &&& 7) + 1),
                     colors := [10, 20, 30, 40, 50, 60].take (3 * 2 ^ ((240 &&& 7) + 1)) },
            frame := List.replicate ((1 + 256 * 0) * (1 + 256 * 0)) 0,
            rest := [10, 20, 30, 40, 50, 60].drop (3 * 2 ^ ((240 &&& 7) + 1)) } ∧
      ([10, 20, 30, 40, 50, 60].take (3 * 2 ^ ((240 &&& 7) + 1))).length =
        3 * 2 ^ ((240 &&& 7) + 1)) :=
  ⟨(c9_open_header_checks 0 0 0 0 0 0 1 0 1 0 0 0 0 []).1 (by decide),
   (c9_open_header_checks 71 73 70 56 57 97 1 0 1 0 0 0 0 []).2.1
     (by decide) (by decide) (Or.inl (by decide)),
   (c9_open_header_checks 71 73 70 56 57 97 1 0 1 0 240 0 0
       [10, 20, 30, 40, 50, 60]).2.2
     (by decide) (by decide) (by decide) (by decide) (by decide)⟩

/-- `read_plain_text_ext` changes only the stream position. -/
theorem read_plain_text_ext_state (s s' : GifState)
    (h : read_plain_text_ext s = some s') :
    s'.width = s.width ∧ s'.gct = s.gct ∧ s'.lct = s.lct ∧
      s'.activeLocal = s.activeLocal ∧ s'.writes = s.writes := by
  unfold read_plain_text_ext at h
  split at h
  · exact absurd h (by simp)
  · injection h with h
    subst h
    exact ⟨rfl, rfl, rfl, rfl, rfl⟩

/-- `read_graphic_control_ext` changes only `gce` and the stream position. -/
theorem read_graphic_control_ext_state (s s' : GifState)
    (h : read_graphic_control_ext s = some s') :
    s'.width = s.width ∧ s'.gct = s.gct ∧ s'.lct = s.lct ∧
      s'.activeLocal = s.activeLocal ∧ s'.writes = s.writes := by
  unfold read_graphic_control_ext at h
  split at h
  · injection h with h
    subst h
    exact ⟨rfl, rfl, rfl, rfl, rfl⟩
  · exact absurd h (by simp)

/-- `read_comment_ext` changes only the stream position. -/
theorem read_comment_ext_state (s s' : GifState)
    (h : read_comment_ext s = some s') :
    s'.width = s.width ∧ s'.gct = s.gct ∧ s'.lct = s.lct ∧
      s'.activeLocal = s.activeLocal ∧ s'.writes = s.writes := by
  unfold read_comment_ext at h
  split at h
  · exact absurd h (by simp)
  · injection h with h
    subst h
    exact ⟨rfl, rfl, rfl, rfl, rfl⟩

/-- `read_application_ext` changes only `loop_count` and the stream position. -/
theorem read_application_ext_state (s s' : GifState)
    (h : read_application_ext s = some s') :
    s'.width = s.width ∧ s'.gct = s.gct ∧ s'.lct = s.lct ∧
      s'.activeLocal = s.activeLocal ∧ s'.writes = s.writes := by
  unfold read_application_ext at h
  repeat' split at h
  all_goals first
    | exact Option.noConfusion h
    | (injection h with h
       subst h
       exact ⟨rfl, rfl, rfl, rfl, rfl⟩)

/-- `read_ext` changes only `gce`, `loop_count` and the stream position:
the raster write log, the palettes and the active-palette selector are
untouched. -/
theorem read_ext_state (s s' : GifState) (h : read_ext s = some s') :
    s'.width = s.width ∧ s'.gct = s.gct ∧ s'.lct = s.lct ∧
      s'.activeLocal = s.activeLocal ∧ s'.writes = s.writes := by
  unfold read_ext at h
  split at h
  · exact Option.noConfusion h
  · split_ifs at h
    · have h' := read_plain_text_ext_state _ _ h
      exact h'
    · have h' := read_graphic_control_ext_state _ _ h
      exact h'
    · have h' := read_comment_ext_state _ _ h
      exact h'
    · have h' := read_application_ext_state _ _ h
      exact h'
    · injection h with h
      subst h
      exact ⟨rfl, rfl, rfl, rfl, rfl⟩

/-- **C10**.  A `gd_get_frame` call that returns 0 (trailer `';'` seen) leaves
the frame raster (the pixel-store log) and the active palette (selector and
both color tables) unchanged; and processing an extension block never writes
to the frame raster — extensions modify only `gce`, `loop_count` and the
stream position. -/
theorem c10_trailer_preserves_frame_and_palette :
    (∀ (fuel : Nat) (s : GifState) (r : Int) (s' : GifState),
      gd_get_frame fuel s = some (r, s') → r = 0 →
      s'.writes = s.writes ∧ s'.activeLocal = s.activeLocal ∧
        s'.lct = s.lct ∧ s'.gct = s.gct) ∧
    (∀ s s' : GifState, read_ext s = some s' →
      s'.writes = s.writes ∧ s'.activeLocal = s.activeLocal ∧
        s'.lct = s.lct ∧ s'.gct = s.gct) := by
  constructor
  · intro fuel
    induction fuel with
    | zero =>
      intro s r s' h _
      exact Option.noConfusion h
    | succ n ih =>
      intro s r s' h hr
      rw [gd_get_frame] at h
      split at h
      · exact Option.noConfusion h
      · split_ifs at h
        · split at h
          · exact Option.noConfusion h
          · simp only [Option.some.injEq, Prod.mk.injEq] at h
            exact absurd (hr ▸ h.1) (by decide)
        · simp only [Option.some.injEq, Prod.mk.injEq] at h
          obtain ⟨-, hs⟩ := h
          subst hs
          exact ⟨rfl, rfl, rfl, rfl⟩
        · split at h
          · exact Option.noConfusion h
          · rename_i s2 heq
            have h2 := ih s2 r s' h hr
            have h3 := read_ext_state _ _ heq
            exact ⟨h2.1.trans h3.2.2.2.2, h2.2.1.trans h3.2.2.2.1,
                   h2.2.2.1.trans h3.2.2.1, h2.2.2.2.trans h3.2.1⟩
        · simp only [Option.some.injEq, Prod.mk.injEq] at h
          exact absurd (hr ▸ h.1) (by decide)
  · intro s s' h
    have h' := read_ext_state _ _ h
    exact ⟨h'.2.2.2.2, h'.2.2.2.1, h'.2.2.1, h'.2.1⟩

/-- Witness for `c10_trailer_preserves_frame_and_palette`: a state whose next
separator is the trailer `0x3B`. -/
theorem c10_trailer_preserves_frame_and_palette_witness :
    ({ width := 2, gct := ⟨2, [1, 2, 3, 4, 5, 6]⟩, lct := ⟨0, []⟩,
       activeLocal := false, gce := ⟨0, 0, 0, 0, 0⟩, loop_count := 0,
       writes := [(0, 1)], input := [7] } : GifState).writes =
      ({ width := 2, gct := ⟨2, [1, 2, 3, 4, 5, 6]⟩, lct := ⟨0, []⟩,
         activeLocal := false, gce := ⟨0, 0, 0, 0, 0⟩, loop_count := 0,
         writes := [(0, 1)], input := [59, 7] } : GifState).writes ∧
    ({ width := 2, gct := ⟨2, [1, 2, 3, 4, 5, 6]⟩, lct := ⟨0, []⟩,
       activeLocal := false, gce := ⟨0, 0, 0, 0, 0⟩, loop_count := 0,
       writes := [(0, 1)], input := [7] } : GifState).activeLocal =
      ({ width := 2, gct := ⟨2, [1, 2, 3, 4, 5, 6]⟩, lct := ⟨0, []⟩,
         activeLocal := false, gce := ⟨0, 0, 0, 0, 0⟩, loop_count := 0,
         writes := [(0, 1)], input := [59, 7] } : GifState).activeLocal ∧
    ({ width := 2, gct := ⟨2, [1, 2, 3, 4, 5, 6]⟩, lct := ⟨0, []⟩,
       activeLocal := false, gce := ⟨0, 0, 0, 0, 0⟩, loop_count := 0,
       writes := [(0, 1)], input := [7] } : GifState).lct =
      ({ width := 2, gct := ⟨2, [1, 2, 3, 4, 5, 6]⟩, lct := ⟨0, []⟩,
         activeLocal := false, gce := ⟨0, 0, 0, 0, 0⟩, loop_count := 0,
         writes := [(0, 1)], input := [59, 7] } : GifState).lct ∧
    ({ width := 2, gct := ⟨2, [1, 2, 3, 4, 5, 6]⟩, lct := ⟨0, []⟩,
       activeLocal := false, gce := ⟨0, 0, 0, 0, 0⟩, loop_count := 0,
       writes := [(0, 1)], input := [7] } : GifState).gct =
      ({ width := 2, gct := ⟨2, [1, 2, 3, 4, 5, 6]⟩, lct := ⟨0, []⟩,
         activeLocal := false, gce := ⟨0, 0, 0, 0, 0⟩, loop_count := 0,
         writes := [(0, 1)], input := [59, 7] } : GifState).gct :=
  c10_trailer_preserves_frame_and_palette.1 1
    { width := 2, gct := ⟨2, [1, 2, 3, 4, 5, 6]⟩, lct := ⟨0, []⟩,
      activeLocal := false, gce := ⟨0, 0, 0, 0, 0⟩, loop_count := 0,
      writes := [(0, 1)], input := [59, 7] } 0
    { width := 2, gct := ⟨2, [1, 2, 3, 4, 5, 6]⟩, lct := ⟨0, []⟩,
      activeLocal := false, gce := ⟨0, 0, 0, 0, 0⟩, loop_count := 0,
      writes := [(0, 1)], input := [7] }
    (by decide) rfl

/-- `goodChain` is monotone in the bound. -/
theorem goodChain_mono_bound (ents : Nat → Entry) {bound bound' : Nat}
    (hb : bound ≤ bound') :
    ∀ (f : Nat) (e : Entry), goodChain ents bound e f = true →
      goodChain ents bound' e f = true := by
  intro f
  induction f with
  | zero => intro e h; exact absurd h (by simp [goodChain])
  | succ n ih =>
    intro e h
    rw [goodChain] at h ⊢
    split_ifs at h ⊢ with hc
    · exact h
    · simp only [Bool.and_eq_true, decide_eq_true_eq] at h ⊢
      exact ⟨⟨Nat.lt_of_lt_of_le h.1.1 hb, h.1.2⟩, ih _ h.2⟩

/-- `goodChain` only inspects entries below the bound, so it is unchanged by
modifying the table at or above the bound. -/
theorem goodChain_congr (ents ents' : Nat → Entry) (bound : Nat)
    (hag : ∀ i, i < bound → ents' i = ents i) :
    ∀ (f : Nat) (e : Entry),
      goodChain ents' bound e f = goodChain ents bound e f := by
  intro f
  induction f with
  | zero => intro e; rfl
  | succ n ih =>
    intro e
    rw [goodChain, goodChain]
    split
    · rfl
    · by_cases hlt : e.pfx < bound
      · rw [hag e.pfx hlt, ih]
      · simp [hlt]

/-- `goodChain` ignores the suffix fields: it is unchanged by a table update
that preserves every entry's `pfx` and `length`. -/
theorem goodChain_suffix_irrel (ents ents' : Nat → Entry) (bound : Nat)
    (hpl : ∀ i, (ents' i).pfx = (ents i).pfx ∧ (ents' i).length = (ents i).length) :
    ∀ (f : Nat) (e e' : Entry), e'.pfx = e.pfx → e'.length = e.length →
      goodChain ents' bound e' f = goodChain ents bound e f := by
  intro f
  induction f with
  | zero => intro e e' _ _; rfl
  | succ n ih =>
    intro e e' hp hl
    rw [goodChain, goodChain, hp, hl]
    split
    · rfl
    · rw [(hpl e.pfx).2, ih (ents e.pfx) (ents' e.pfx) (hpl e.pfx).1 (hpl e.pfx).2]

/-- On a good chain, `entryStr` only inspects entries below the bound. -/
theorem entryStr_congr (ents ents' : Nat → Entry) (bound : Nat)
    (hag : ∀ i, i < bound → ents' i = ents i) :
    ∀ (f : Nat) (e : Entry), goodChain ents bound e f = true →
      entryStr ents' e f = entryStr ents e f := by
  intro f
  induction f with
  | zero => intro e h; exact absurd h (by simp [goodChain])
  | succ n ih =>
    intro e h
    rw [goodChain] at h
    rw [entryStr, entryStr]
    split at h
    · simp [*]
    · simp only [Bool.and_eq_true, decide_eq_true_eq] at h
      rw [if_neg (by assumption), if_neg (by assumption),
        hag e.pfx h.1.1, ih _ h.2]

/-- `getD` at the final position of an appended singleton. -/
theorem getD_append_last (s : List Nat) (a : Nat) :
    (s ++ [a]).getD s.length 0 = a := by
  simp [List.getD_eq_getElem?_getD, List.getElem?_append_right (le_refl s.length)]

/-- `getD` below the length of the left part of an append. -/
theorem getD_append_lt (s : List Nat) (a : Nat) (i : Nat) (h : i < s.length) :
    (s ++ [a]).getD i 0 = s.getD i 0 := by
  simp [List.getD_eq_getElem?_getD, List.getElem?_append_left h]

/-- On a good chain with fuel `e.length`, `entryStr` succeeds with a string of
exactly `e.length` characters, and the emission loop performs exactly the
stores `(place (base + i), s[i])` for `i = e.length - 1, …, 0` (right to
left), finishing with the literal entry `⟨1, 0xFFF, s.head⟩`. -/
theorem goodChain_unfolds (ents : Nat → Entry) (bound : Nat) :
    ∀ (f : Nat) (e : Entry), goodChain ents bound e f = true →
      ∃ s : List Nat, entryStr ents e f = some s ∧ s.length = e.length ∧
        s ≠ [] ∧
        ∀ (base : Nat) (place : Nat → Nat),
          emitLoop ents base place e f =
            some ((List.range s.length).reverse.map
                    (fun i => (place (base + i), s.getD i 0)),
                  ⟨1, 0xFFF, s.headD 0⟩) := by
  intro f
  induction f with
  | zero => intro e h; exact absurd h (by simp [goodChain])
  | succ n ih =>
    intro e h
    rw [goodChain] at h
    split_ifs at h with hc
    · obtain ⟨l, p, sfx⟩ := e
      simp only at hc h
      subst hc
      have hlen : l = 1 := by simpa using h
      subst hlen
      refine ⟨[sfx], by rw [entryStr]; rfl, rfl, by simp, ?_⟩
      intro base place
      rw [emitLoop]
      simp [List.range_succ]
    · simp only [Bool.and_eq_true, decide_eq_true_eq] at h
      obtain ⟨⟨hlt, hlen⟩, hgc⟩ := h
      obtain ⟨s', hstr', hslen', hsne', hemit'⟩ := ih (ents e.pfx) hgc
      have hlen' : e.length = (ents e.pfx).length + 1 := by simpa using hlen
      refine ⟨s' ++ [e.suffix], ?_, ?_, by simp, ?_⟩
      · rw [entryStr, if_neg hc, hstr']
      · simp [hslen', hlen']
      · intro base place
        rw [emitLoop, if_neg hc, hemit' base place]
        have hr : (List.range ((s' ++ [e.suffix]).length)).reverse =
            s'.length :: (List.range s'.length).reverse := by
          rw [List.length_append, List.length_cons, List.length_nil,
            List.range_succ, List.reverse_append]
          rfl
        have hhd : (s' ++ [e.suffix]).headD 0 = s'.headD 0 := by
          cases s' with
          | nil => exact absurd rfl hsne'
          | cons a t => rfl
        rw [hr, List.map_cons, hhd]
        have h1 : base + e.length - 1 = base + s'.length := by
          rw [hlen', hslen']
          omega
        have h2 : (s' ++ [e.suffix]).getD s'.length 0 = e.suffix :=
          getD_append_last s' e.suffix
        rw [h1, h2]
        have h4 : (List.range s'.length).reverse.map
              (fun i => (place (base + i), (s' ++ [e.suffix]).getD i 0)) =
            (List.range s'.length).reverse.map
              (fun i => (place (base + i), s'.getD i 0)) := by
          refine List.map_congr_left ?_
          intro i hi
          rw [List.mem_reverse, List.mem_range] at hi
          rw [getD_append_lt _ _ _ hi]
        rw [h4]

/-- `emitLoop` succeeds unchanged with any larger fuel. -/
theorem emitLoop_fuel_mono (ents : Nat → Entry) (base : Nat) (place : Nat → Nat) :
    ∀ (f f' : Nat) (e : Entry) r, f ≤ f' → emitLoop ents base place e f = some r →
      emitLoop ents base place e f' = some r := by
  intro f
  induction f with
  | zero => intro f' e r _ h; exact Option.noConfusion h
  | succ n ih =>
    intro f' e r hle h
    match f', hle with
    | f'' + 1, hle =>
      rw [emitLoop] at h ⊢
      split_ifs at h ⊢ with hc
      · exact h
      · match hrec : emitLoop ents base place (ents e.pfx) n with
        | none => rw [hrec] at h; exact Option.noConfusion h
        | some r' =>
          rw [hrec] at h
          rw [ih f'' (ents e.pfx) r' (Nat.succ_le_succ_iff.mp hle) hrec]
          exact h

/-- Building block for the add-preservation part of the chain invariant: an
entry whose prefix is a good decodable code is itself good with fuel
`length`. -/
theorem goodChain_cons (ents : Nat → Entry) (bound L k sfx : Nat)
    (hk : k < bound) (hkne : k ≠ 0xFFF) (hL : L = (ents k).length)
    (hgc : goodChain ents bound (ents k) ((ents k).length) = true) :
    goodChain ents bound ⟨L + 1, k, sfx⟩ (L + 1) = true := by
  rw [goodChain]
  simp only
  rw [if_neg hkne]
  simp only [Bool.and_eq_true, decide_eq_true_eq]
  refine ⟨⟨hk, by simp [hL]⟩, ?_⟩
  rw [hL]
  exact hgc

/-- **C8**.  The prefix-chain invariant: (1) every decodable entry of a fresh
table is a literal, so `new_table` satisfies `wfTable`; (2) the speculative
`add_entry` performed by the decode loop (length one more than the prefix
entry's, prefix a decodable code) preserves `wfTable`; (3) the KwKwK suffix
patch preserves `wfTable`; (4) in any table satisfying `wfTable`, for every
code `C < nentries` other than CLEAR/STOP, the walk via `pfx` reaches a
literal within `(entries C).length` steps (`entryStr` succeeds with that very
fuel), and the right-to-left emission loop terminates and performs exactly
`(entries C).length` pixel stores. -/
theorem c8_prefix_chains_wellformed :
    (∀ K : Nat, wfTable (new_table K) (2 ^ K)) ∧
    (∀ (t : Table) (clear k sfx : Nat), wfTable t clear → t.nentries ≤ 0xFFF →
      k < t.nentries → k ≠ clear → k ≠ clear + 1 →
      wfTable (add_entry t ((t.entries k).length + 1) k sfx).2 clear) ∧
    (∀ (t : Table) (clear j sfx : Nat), wfTable t clear →
      wfTable (patchSuffix t j sfx) clear) ∧
    (∀ (t : Table) (clear C base : Nat) (place : Nat → Nat), wfTable t clear →
      C < t.nentries → C ≠ clear → C ≠ clear + 1 →
      ∃ (s : List Nat) (ws : List (Nat × Nat)) (leaf : Entry),
        entryStr t.entries (t.entries C) ((t.entries C).length) = some s ∧
        s.length = (t.entries C).length ∧
        emitLoop t.entries base place (t.entries C) ((t.entries C).length) =
          some (ws, leaf) ∧
        ws.length = (t.entries C).length) := by
  refine ⟨?_, ?_, ?_, ?_⟩
  · intro K i hi h1 h2
    have hilt : i < 2 ^ K := by
      simp only [new_table] at hi h1 h2
      omega
    simp only [new_table, if_pos hilt]
    simp [goodChain]
  · intro t clear k sfx hwf hcap hk hkc hks i hi h1 h2
    simp only [add_entry] at hi ⊢
    have hagree : ∀ j, j < t.nentries →
        (if j = t.nentries
          then (⟨(t.entries k).length + 1, k, sfx⟩ : Entry)
          else t.entries j) = t.entries j := by
      intro j hj
      exact if_neg (by omega)
    by_cases hlt : i < t.nentries
    · rw [hagree i hlt]
      refine goodChain_mono_bound _ (Nat.le_succ _) _ _ ?_
      rw [goodChain_congr t.entries _ t.nentries hagree]
      exact hwf i hlt h1 h2
    · have hieq : i = t.nentries := by omega
      subst hieq
      rw [if_pos rfl]
      show goodChain _ (t.nentries + 1)
        (⟨(t.entries k).length + 1, k, sfx⟩ : Entry) ((t.entries k).length + 1) = true
      have hkent := hagree k hk
      refine goodChain_cons _ (t.nentries + 1) _ k sfx (by omega)
        (by omega) (by simp only [hkent]) ?_
      simp only [hkent]
      refine goodChain_mono_bound _ (Nat.le_succ _) _ _ ?_
      rw [goodChain_congr t.entries _ t.nentries hagree]
      exact hwf k hk hkc hks
  · intro t clear j sfx hwf i hi h1 h2
    have hpl : ∀ m, ((patchSuffix t j sfx).entries m).pfx = (t.entries m).pfx ∧
        ((patchSuffix t j sfx).entries m).length = (t.entries m).length := by
      intro m
      simp only [patchSuffix]
      split_ifs with hm
      · subst hm
        exact ⟨rfl, rfl⟩
      · exact ⟨rfl, rfl⟩
    show goodChain (patchSuffix t j sfx).entries t.nentries
      ((patchSuffix t j sfx).entries i) (((patchSuffix t j sfx).entries i).length) = true
    rw [(hpl i).2]
    rw [goodChain_suffix_irrel t.entries (patchSuffix t j sfx).entries t.nentries hpl
      _ (t.entries i) ((patchSuffix t j sfx).entries i) (hpl i).1 (hpl i).2]
    exact hwf i hi h1 h2
  · intro t clear C base place hwf hC h1 h2
    obtain ⟨s, hstr, hslen, hsne, hemit⟩ :=
      goodChain_unfolds t.entries t.nentries ((t.entries C).length) (t.entries C)
        (hwf C hC h1 h2)
    refine ⟨s, _, _, hstr, hslen, hemit base place, ?_⟩
    simp [hslen]

/-- Reading a list back from its `getD` values over `range`. -/
theorem range_map_getD (s : List Nat) :
    (List.range s.length).map (fun i => s.getD i 0) = s := by
  refine List.ext_getElem (by simp) ?_
  intro n h1 h2
  simp [List.getD_eq_getElem?_getD, List.getElem?_eq_getElem h2]

/-- **C7**.  Non-interlaced placement: when the emission loop runs over a
well-formed chain whose string is `sp`, the pixel with linear decoded index
`p = base + i` (where `base` is `frm_off`) is stored at flat raster offset
`(y + p / w) * width + (x + p % w)` — i.e. raster cell
`(y + p / w, x + p % w)` of the logical-screen-sized frame raster. -/
theorem c7_noninterlaced_placement (ents : Nat → Entry) (bound : Nat) (e : Entry)
    (sp : List Nat) (x y w width base f : Nat)
    (hgc : goodChain ents bound e f = true)
    (hstr : entryStr ents e f = some sp) :
    emitLoop ents base (fun p => (y + p / w) * width + (x + p % w)) e f =
      some ((List.range sp.length).reverse.map
              (fun i => ((y + (base + i) / w) * width + (x + (base + i) % w),
                         sp.getD i 0)),
            ⟨1, 0xFFF, sp.headD 0⟩) := by
  obtain ⟨s, hstr', hslen, hsne, hemit⟩ := goodChain_unfolds ents bound f e hgc
  rw [hstr'] at hstr
  injection hstr with hstr
  subst hstr
  exact hemit base _

/-- Witness for `c7_noninterlaced_placement`: the literal entry 5 of a fresh
3-bit table, emitted at `frm_off = 4` into a rect at `(x, y) = (1, 2)` of
width 3 on a logical screen of width 10. -/
theorem c7_noninterlaced_placement_witness :
    emitLoop (new_table 3).entries 4
        (fun p => (2 + p / 3) * 10 + (1 + p % 3)) ((new_table 3).entries 5) 1 =
      some ((List.range ([5] : List Nat).length).reverse.map
              (fun i => ((2 + (4 + i) / 3) * 10 + (1 + (4 + i) % 3),
                         ([5] : List Nat).getD i 0)),
            ⟨1, 0xFFF, ([5] : List Nat).headD 0⟩) :=
  c7_noninterlaced_placement (new_table 3).entries (new_table 3).nentries
    ((new_table 3).entries 5) [5] 1 2 3 10 4 1 (by decide) (by decide)

/-- Witness for `c8_prefix_chains_wellformed`: emission of code 1 of a fresh
2-bit table. -/
theorem c8_prefix_chains_wellformed_witness :
    ∃ (s : List Nat) (ws : List (Nat × Nat)) (leaf : Entry),
      entryStr (new_table 2).entries ((new_table 2).entries 1)
          ((new_table 2).entries 1).length = some s ∧
      s.length = ((new_table 2).entries 1).length ∧
      emitLoop (new_table 2).entries 0 (fun p => p) ((new_table 2).entries 1)
          ((new_table 2).entries 1).length = some (ws, leaf) ∧
      ws.length = ((new_table 2).entries 1).length :=
  c8_prefix_chains_wellformed.2.2.2 (new_table 2) 4 1 0 (fun p => p)
    (by decide) (by decide) (by decide) (by decide)

/-- The speculative entry added by the decode loop: with prefix a decodable
code `k` whose string is `sp` and suffix `hd`, the new entry at index `n`
denotes the string `sp ++ [hd]`, and its chain is good. -/
theorem speculative_entry (ents ents' : Nat → Entry) (n L k hd : Nat) (sp : List Nat)
    (hk : k < n) (hkne : k ≠ 0xFFF)
    (hagree : ∀ j, j < n → ents' j = ents j)
    (hnew : ents' n = ⟨L + 1, k, hd⟩)
    (hgc : goodChain ents n (ents k) ((ents k).length) = true)
    (hstr : entryStr ents (ents k) ((ents k).length) = some sp)
    (hL : L = sp.length) :
    goodChain ents' (n + 1) (ents' n) ((ents' n).length) = true ∧
    entryStr ents' (ents' n) ((ents' n).length) = some (sp ++ [hd]) := by
  have hlen : sp.length = (ents k).length := by
    obtain ⟨s₀, h₀, hl₀, -, -⟩ := goodChain_unfolds ents n _ _ hgc
    rw [h₀] at hstr
    injection hstr with hstr
    subst hstr
    exact hl₀
  have hk' : ents' k = ents k := hagree k hk
  have hchain' : goodChain ents' (n + 1) (ents k) ((ents k).length) = true := by
    refine goodChain_mono_bound _ (Nat.le_succ _) _ _ ?_
    rw [goodChain_congr ents ents' n hagree]
    exact hgc
  constructor
  · rw [hnew]
    show goodChain ents' (n + 1) (⟨L + 1, k, hd⟩ : Entry) (L + 1) = true
    refine goodChain_cons ents' (n + 1) L k hd (by omega) hkne ?_ ?_
    · rw [hk', hL]
      exact hlen
    · rw [hk']
      exact hchain'
  · rw [hnew]
    show entryStr ents' (⟨L + 1, k, hd⟩ : Entry) (L + 1) = some (sp ++ [hd])
    rw [entryStr]
    simp only
    rw [if_neg hkne, hk', hL, hlen]
    rw [entryStr_congr ents ents' n hagree _ _ hgc, hstr]

/-- The values stored by the emission loop, read in reverse order of the
stores, are exactly the emitted string. -/
theorem emit_writes_values (q : List Nat) (place : Nat → Nat) (base : Nat) :
    (((List.range q.length).reverse.map
        (fun i => (place (base + i), q.getD i 0))).map Prod.snd).reverse = q := by
  rw [List.map_map]
  show ((List.range q.length).reverse.map (fun i => q.getD i 0)).reverse = q
  rw [List.map_reverse, List.reverse_reverse]
  exact range_map_getD q

/-- **C5** (KwKwK).  When the decoder, after processing previous code `s.key`
whose string is `sp`, reads a code equal to `table.nentries` (the entry not
yet added), the string it emits is `sp ++ [sp.head]` — the previous string
followed by its own first character.  The mechanism is the speculative
`add_entry` of `⟨str_len + 1, key, prev first char⟩` at the top of the loop;
because the decoded code equals `nentries - 1` after the add (so the patch
guard `key < nentries - 1` is false), the speculative suffix is kept. -/
theorem c5_kwkwk_emits_prev_plus_first (s : LzwState) (sp : List Nat)
    (sl sh b2 : Nat) (inp : List Nat)
    (hkc : s.key ≠ s.clear)
    (hfull : s.table_is_full = false)
    (hcap : s.table.nentries ≤ 0xFFF)
    (hk : s.key < s.table.nentries)
    (hwfk : goodChain s.table.entries s.table.nentries
      (s.table.entries s.key) ((s.table.entries s.key).length) = true)
    (hstr : entryStr s.table.entries (s.table.entries s.key)
      ((s.table.entries s.key).length) = some sp)
    (hsl : s.str_len = (s.table.entries s.key).length)
    (hsfx : s.entry.suffix = sp.headD 0)
    (hget : get_key s.key_size s.sub_len s.shift s.b s.input =
      some (s.table.nentries, sl, sh, b2, inp))
    (hnc : s.table.nentries ≠ s.clear)
    (hns : s.table.nentries ≠ s.clear + 1)
    (hspcap : sp.length < 0x1001) :
    ∃ (s' : LzwState) (ws : List (Nat × Nat)),
      lzwStep s = .cont s' ∧
      s'.writes = s.writes ++ ws ∧
      (ws.map Prod.snd).reverse = sp ++ [sp.headD 0] ∧
      s'.table.entries s.table.nentries = ⟨sp.length + 1, s.key, sp.headD 0⟩ ∧
      s'.frm_off = s.frm_off + (sp.length + 1) := by
  have hlen0 : sp.length = (s.table.entries s.key).length := by
    obtain ⟨s₀, h₀, hl₀, -, -⟩ :=
      goodChain_unfolds s.table.entries s.table.nentries _ _ hwfk
    rw [h₀] at hstr
    injection hstr with hstr
    subst hstr
    exact hl₀
  have hsl' : s.str_len = sp.length := hsl.trans hlen0.symm
  have hkne : s.key ≠ 0xFFF := by omega
  have hagree : ∀ j, j < s.table.nentries →
      (if j = s.table.nentries
        then (⟨sp.length + 1, s.key, sp.headD 0⟩ : Entry)
        else s.table.entries j) = s.table.entries j :=
    fun j hj => if_neg (by omega)
  obtain ⟨hgcE, hstrE⟩ := speculative_entry s.table.entries
    (fun m => if m = s.table.nentries
      then (⟨sp.length + 1, s.key, sp.headD 0⟩ : Entry)
      else s.table.entries m)
    s.table.nentries sp.length s.key (sp.headD 0) sp hk hkne hagree
    (if_pos rfl) hwfk hstr rfl
  obtain ⟨sE, hstrE', hslenE, hsneE, hemitE⟩ :=
    goodChain_unfolds _ (s.table.nentries + 1) _ _ hgcE
  rw [hstrE] at hstrE'
  injection hstrE' with hstrE'
  subst hstrE'
  have hAn : (if s.table.nentries = s.table.nentries
      then (⟨sp.length + 1, s.key, sp.headD 0⟩ : Entry)
      else s.table.entries s.table.nentries) =
      ⟨sp.length + 1, s.key, sp.headD 0⟩ := if_pos rfl
  have hemit2 := hemitE s.frm_off
    (fun p => (s.y + p / s.w) * s.width + (s.x + p % s.w))
  rw [hAn, show (⟨sp.length + 1, s.key, sp.headD 0⟩ : Entry).length = sp.length + 1
    from rfl] at hemit2
  have hemit3 := emitLoop_fuel_mono
    (fun m => if m = s.table.nentries
      then (⟨sp.length + 1, s.key, sp.headD 0⟩ : Entry)
      else s.table.entries m)
    s.frm_off
    (fun p => (s.y + p / s.w) * s.width + (s.x + p % s.w))
    (sp.length + 1) 0x1001 _ _ (by omega) hemit2
  unfold lzwStep
  rw [if_neg hkc, if_pos hfull]
  simp only [add_entry, hsl', hsfx]
  by_cases hfc : s.table.nentries + 1 = 0x1000
  · rw [if_pos hfc]
    simp only [hget]
    rw [if_neg hnc, if_neg hns, if_neg (by decide : ¬((0 : Nat) = 1))]
    simp only [if_true, hemit3]
    rw [if_neg (by simp)]
    exact ⟨_, _, rfl, rfl,
      emit_writes_values (sp ++ [sp.headD 0])
        (fun p => (s.y + p / s.w) * s.width + (s.x + p % s.w)) s.frm_off,
      if_pos rfl, rfl⟩
  · rw [if_neg hfc]
    simp only [hget]
    rw [if_neg hnc, if_neg hns]
    simp only [Nat.add_sub_cancel]
    by_cases hpow : (s.table.nentries + 1) &&& s.table.nentries = 0
    · rw [if_pos hpow, if_pos rfl]
      simp only [if_true, hemit3]
      rw [if_neg (by simp)]
      exact ⟨_, _, rfl, rfl,
        emit_writes_values (sp ++ [sp.headD 0])
          (fun p => (s.y + p / s.w) * s.width + (s.x + p % s.w)) s.frm_off,
        if_pos rfl, rfl⟩
    · rw [if_neg hpow, if_neg (by decide : ¬((0 : Nat) = 1))]
      simp only [if_true, hemit3]
      rw [if_neg (by simp)]
      exact ⟨_, _, rfl, rfl,
        emit_writes_values (sp ++ [sp.headD 0])
          (fun p => (s.y + p / s.w) * s.width + (s.x + p % s.w)) s.frm_off,
        if_pos rfl, rfl⟩

/-- Witness for `c5_kwkwk_emits_prev_plus_first`: fresh 2-bit table (6
entries), previous code 1 with string `[1]`, next code 6 = `nentries`; the
step emits `[1, 1]` and keeps the speculative entry `⟨2, 1, 1⟩`. -/
theorem c5_kwkwk_emits_prev_plus_first_witness :
    ∃ (s' : LzwState) (ws : List (Nat × Nat)),
      lzwStep
        { width := 10, x := 0, y := 0, w := 10, clear := 4, key_size := 3,
          init_key_size := 3, sub_len := 1, shift := 0, b := 0, input := [6],
          table := new_table 2, table_is_full := false, str_len := 1,
          entry := ⟨1, 0xFFF, 1⟩, frm_off := 0, ret := 0, key := 1,
          writes := [], keyTrace := [] } = .cont s' ∧
      s'.writes = [] ++ ws ∧
      (ws.map Prod.snd).reverse = [1, 1] ∧
      s'.table.entries 6 = ⟨2, 1, 1⟩ ∧
      s'.frm_off = 2 :=
  c5_kwkwk_emits_prev_plus_first
    { width := 10, x := 0, y := 0, w := 10, clear := 4, key_size := 3,
      init_key_size := 3, sub_len := 1, shift := 0, b := 0, input := [6],
      table := new_table 2, table_is_full := false, str_len := 1,
      entry := ⟨1, 0xFFF, 1⟩, frm_off := 0, ret := 0, key := 1,
      writes := [], keyTrace := [] }
    [1] 0 3 6 []
    (by decide) rfl (by decide) (by decide) (by decide) (by decide) rfl rfl
    (by decide) (by decide) (by decide) (by decide)
